import Mathlib

/-!
Verification development for the memory-brain engine.

This file gives a shallow embedding, in Lean, of the parts of the Rust
sources relevant to the claims under review: the memory data model
(`src/types.rs`), working memory (`src/working.rs`), the consolidator
(`src/consolidate.rs`), the forgetting curve (`src/forgetting.rs`), the
tier stores (`src/episodic.rs`, `src/semantic.rs`, `src/procedural.rs`),
the persistence row codec (`src/storage.rs`), the hash embedder
(`src/embedding.rs`), the embedding cache (`src/cache.rs`), the bloom
filter (`src/bloom_filter.rs`), the inverted index
(`src/inverted_index.rs`) and the orchestrator (`src/lib.rs`).

Modelling conventions:
- `f32`/`f64` arithmetic is modelled over `ℝ` (exact); the numeric
  tolerances in the specification absorb floating-point rounding.
- Timestamps (`DateTime<Utc>`) are modelled as epoch milliseconds `ℤ`,
  the resolution declared by the specification; wall-clock reads
  (`Utc::now()`) become an explicit `now : ℤ` parameter.
- `Uuid` values are modelled by their string rendering (`String`), which
  is all the code under study inspects.
- Rust `str::to_lowercase` is modelled per-character with
  `Char.toLower`; the two agree on the ASCII inputs used in every
  concrete witness and counterexample below.
- External hash functions (`DefaultHasher`) are opaque to this
  repository and are modelled as explicit function parameters.
-/

namespace MemoryBrain


/-- Lower-case a string at the character level (model of Rust
`str::to_lowercase`, which the code applies before every comparison). -/
def lowerChars (s : String) : List Char := s.data.map Char.toLower

/-- Substring containment on character lists (model of Rust
`str::contains(&str)`). -/
def strContains (hay needle : List Char) : Prop := needle <:+: hay

instance (hay needle : List Char) : Decidable (strContains hay needle) :=
  List.decidableInfix needle hay

/-- Boolean form of `strContains`, used where the Rust code branches. -/
def strContainsB (hay needle : List Char) : Bool := decide (strContains hay needle)

/-- Prefix test on strings (model of Rust `str::starts_with`). -/
def strStartsWith (s pre : String) : Bool := decide (pre.data <+: s.data)

/-- Type of memory storage (`src/types.rs`, `enum MemoryType`). -/
inductive MemoryType where
  | Working
  | Episodic
  | Semantic
  | Procedural
deriving DecidableEq, Repr

/-- Emotional valence (`src/types.rs`, `enum Emotion`). -/
inductive Emotion where
  | Neutral
  | Positive
  | Negative
  | Surprise
deriving DecidableEq, Repr

/-- A single memory item (`src/types.rs`, `struct MemoryItem`). -/
structure MemoryItem where
  id : String
  content : String
  context : Option String
  memory_type : MemoryType
  emotion : Emotion
  created_at : ℤ
  last_accessed : ℤ
  access_count : ℕ
  strength : ℝ
  embedding : Option (List ℝ)
  associations : List String
  tags : List String

/-- Constructor defaults (`MemoryItem::new`): working tier, neutral
emotion, access count 1, strength 1.0, no embedding. -/
def MemoryItem.new (now : ℤ) (freshId : String) (content : String)
    (context : Option String) : MemoryItem :=
  { id := freshId
    content := content
    context := context
    memory_type := MemoryType.Working
    emotion := Emotion.Neutral
    created_at := now
    last_accessed := now
    access_count := 1
    strength := 1
    embedding := none
    associations := []
    tags := [] }

/-- Mark as accessed (`MemoryItem::access`): bump `last_accessed`,
increment `access_count`, strengthen by 0.1 clamped to 1.0. -/
noncomputable def MemoryItem.access (now : ℤ) (item : MemoryItem) : MemoryItem :=
  { item with
    last_accessed := now
    access_count := item.access_count + 1
    strength := min (item.strength + 0.1) 1 }

/-- Memory too weak to keep (`MemoryItem::is_forgotten`). -/
def MemoryItem.is_forgotten (item : MemoryItem) : Prop := item.strength < 0.1

/-- Consolidation test (`Consolidator::should_consolidate` with the
constructor thresholds `strength_threshold = 0.6`,
`repetition_threshold = 3`): emotional, or strong, or frequently
accessed. -/
def shouldConsolidate (item : MemoryItem) : Prop :=
  item.emotion ≠ Emotion.Neutral ∨ (0.6 : ℝ) ≤ item.strength ∨ 3 ≤ item.access_count

/-- Tier classification (`Consolidator::classify`): procedural patterns,
then facts, then time-referenced or contextual episodes, defaulting to
episodic. -/
def classify (item : MemoryItem) : MemoryType :=
  let c := lowerChars item.content
  if strContainsB c "when ".data && strContainsB c " then ".data
      || strContainsB c "pattern:".data
      || strContainsB c "how to ".data
      || strContainsB c "always ".data
      || strContainsB c "never ".data then
    MemoryType.Procedural
  else if strContainsB c " is ".data
      || strContainsB c " are ".data
      || strContainsB c " means ".data
      || strContainsB c "definition:".data
      || strContainsB c "fact:".data then
    MemoryType.Semantic
  else if strContainsB c "yesterday".data
      || strContainsB c "today".data
      || strContainsB c "last ".data
      || strContainsB c "just now".data
      || strContainsB c "earlier".data
      || item.context.isSome then
    MemoryType.Episodic
  else
    MemoryType.Episodic

/-- Working memory (`src/working.rs`, `struct WorkingMemory`): a bounded
deque with an importance threshold (0.7 at construction). The deque is
modelled as a list whose head is the front (oldest) element. -/
structure WorkingMemory where
  items : List MemoryItem
  capacity : ℕ
  importance_threshold : ℝ

/-- Fresh working memory (`WorkingMemory::new`). -/
def WorkingMemory.mkNew (capacity : ℕ) : WorkingMemory :=
  { items := [], capacity := capacity, importance_threshold := 0.7 }

/-- Push into working memory (`WorkingMemory::push`): the item's tier is
overwritten to `Working`; if the deque is at (or above) capacity the
front element is popped and returned as the eviction. -/
def WorkingMemory.push (wm : WorkingMemory) (item : MemoryItem) :
    WorkingMemory × Option MemoryItem :=
  let item := { item with memory_type := MemoryType.Working }
  if wm.capacity ≤ wm.items.length then
    ({ wm with items := wm.items.tail ++ [item] }, wm.items.head?)
  else
    ({ wm with items := wm.items ++ [item] }, none)

/-- Query match used by `WorkingMemory::search` (and by
`Storage::search`): case-folded substring match against the content, or
against the context when present. -/
def matchesQuery (q : String) (item : MemoryItem) : Bool :=
  strContainsB (lowerChars item.content) (lowerChars q)
    || (match item.context with
        | some c => strContainsB (lowerChars c) (lowerChars q)
        | none => false)

/-- Search working memory (`WorkingMemory::search`). -/
def WorkingMemory.search (wm : WorkingMemory) (q : String) : List MemoryItem :=
  wm.items.filter (matchesQuery q)

/-- Items worth long-term storage (`WorkingMemory::get_important`):
strength at least the importance threshold. -/
noncomputable def WorkingMemory.getImportant (wm : WorkingMemory) : List MemoryItem :=
  wm.items.filter (fun item =>
    @decide (wm.importance_threshold ≤ item.strength) (Classical.propDecidable _))

/-- Clear working memory (`WorkingMemory::clear`). -/
def WorkingMemory.clear (wm : WorkingMemory) : WorkingMemory :=
  { wm with items := [] }

/-! ## Bloom filter (`src/bloom_filter.rs`)

The bit array is modelled as a predicate on indices; the two 64-bit
`DefaultHasher` values derived from an item are external to this
repository and appear as an explicit parameter `hash2`. -/

/-- Bloom filter state (`struct BloomFilter`). -/
structure BloomFilter where
  bits : ℕ → Bool
  size : ℕ
  num_hashes : ℕ
  count : ℕ

/-- Double-hashing position list (`BloomFilter::hashes`):
`h_i = (h1 + i*h2) mod 2^64 mod size`, one position per hash function.
`hash2 x` supplies the pair `(h1, h2)` produced by the two
`DefaultHasher` rounds on `x`. -/
def BloomFilter.hashes {α : Type} (hash2 : α → ℕ × ℕ) (f : BloomFilter) (x : α) :
    List ℕ :=
  (List.range f.num_hashes).map
    (fun i => ((hash2 x).1 + i * (hash2 x).2) % 2 ^ 64 % f.size)

/-- Add an item (`BloomFilter::add`): set every hashed position. -/
def BloomFilter.add {α : Type} (hash2 : α → ℕ × ℕ) (f : BloomFilter) (x : α) :
    BloomFilter :=
  { f with
    bits := fun i => if i ∈ BloomFilter.hashes hash2 f x then true else f.bits i
    count := f.count + 1 }

/-- Membership test (`BloomFilter::contains`): all hashed positions set. -/
def BloomFilter.containsItem {α : Type} (hash2 : α → ℕ × ℕ) (f : BloomFilter) (x : α) :
    Bool :=
  (BloomFilter.hashes hash2 f x).all f.bits

/-- Fold a list of further additions into the filter. -/
def BloomFilter.addAll {α : Type} (hash2 : α → ℕ × ℕ) (f : BloomFilter) (xs : List α) :
    BloomFilter :=
  xs.foldl (BloomFilter.add hash2) f

/-! ## Inverted index (`src/inverted_index.rs`)

The tokenizer splits the lower-cased text on every character that is
neither alphanumeric nor an underscore and keeps pieces of UTF-8 byte
length at least 2. Underscore is written `Char.ofNat 95`. -/

/-- UTF-8 byte length of a character list (model of Rust `str::len`). -/
def byteLen (t : List Char) : ℕ := (t.map Char.utf8Size).sum

/-- Underscore character. -/
def underscore : Char := Char.ofNat 95

/-- Tokenizer of the inverted index (`inverted_index.rs`, `fn tokenize`):
lower-case, split on `!c.is_alphanumeric() && c != '_'`, keep pieces with
`s.len() >= 2` (bytes). -/
def tokenize (s : String) : List (List Char) :=
  ((lowerChars s).splitOnP (fun c => !c.isAlphanum && !(c == underscore))).filter
    (fun t => 2 ≤ byteLen t)

/-- Maximal runs of `p`-satisfying elements, in order: an independent
formalisation of "maximal runs of kept code points". The accumulator
carries the current (reversed) run. -/
def runsAux (p : α → Bool) : List α → List α → List (List α)
  | [], acc => if acc.isEmpty then [] else [acc.reverse]
  | a :: l, acc =>
    if p a then runsAux p l (a :: acc)
    else (if acc.isEmpty then [] else [acc.reverse]) ++ runsAux p l []

/-- Maximal runs of `p`-satisfying elements of a list. -/
def runsP (p : α → Bool) (l : List α) : List (List α) := runsAux p l []

/-! ## Ranked search (`InvertedIndex::search_ranked`)

The keyword map is modelled as a posting function `idx` from tokens to
document lists. The `scores : HashMap<Uuid, usize>` built by the loop is
collected with `into_iter` in the hash map's per-instance iteration
order; that order is modelled as an explicit `order` parameter listing
the documents with positive score. -/

/-- Relevance score of a document (`search_ranked` scoring loop): the
number of query-token occurrences whose posting set contains the
document. -/
def score {ι : Type} [DecidableEq ι] (idx : List Char → List ι)
    (tokens : List (List Char)) (d : ι) : ℕ :=
  tokens.countP (fun t => decide (d ∈ idx t))

/-- Admissible hash-map iteration orders for the score map: the listed
documents are exactly those with positive score, each once. -/
def admissibleOrder {ι : Type} [DecidableEq ι] (idx : List Char → List ι)
    (tokens : List (List Char)) (order : List ι) : Prop :=
  order.Nodup ∧ ∀ d, d ∈ order ↔ 0 < score idx tokens d

/-- Descending-score comparison used by the `sort_by` call in
`search_ranked` (`|a, b| b.1.cmp(&a.1)` on `(id, score)` pairs). -/
def scoreGe {ι : Type} (a b : ι × ℕ) : Prop := b.2 ≤ a.2

instance {ι : Type} : DecidableRel (@scoreGe ι) := fun a b => Nat.decLe b.2 a.2

instance {ι : Type} : IsTotal (ι × ℕ) scoreGe := ⟨fun a b => le_total b.2 a.2⟩

instance {ι : Type} : IsTrans (ι × ℕ) scoreGe :=
  ⟨fun _ _ _ hab hbc => le_trans hbc hab⟩

/-- Ranked search (`InvertedIndex::search_ranked`): tokenize the query,
accumulate per-document token counts, collect in hash-map order, sort by
score descending, truncate to `limit`. Rust's `sort_by` is a stable
sort; it is modelled by the (equally stable) insertion sort. -/
def searchRankedO {ι : Type} [DecidableEq ι] (idx : List Char → List ι)
    (q : String) (limit : ℕ) (order : List ι) : List (ι × ℕ) :=
  let tokens := tokenize q
  if tokens.isEmpty then []
  else
    ((order.map (fun d => (d, score idx tokens d))).insertionSort scoreGe).take limit

/-! ## Embedding cache (`src/cache.rs`)

`CachedEmbedder` keys the LRU cache (the external `lru` crate) by the
64-bit `DefaultHasher` value of the text; the hasher is modelled as an
explicit function parameter `h`, the inner embedder as a function
`inner`. The LRU list is most-recent-first. -/

/-- LRU cache state (`LruCache<u64, Vec<f32>>`), most recent first. -/
structure LruCacheM (V : Type) where
  entries : List (ℕ × V)
  cap : ℕ

/-- Empty cache of a given capacity. -/
def LruCacheM.empty (V : Type) (cap : ℕ) : LruCacheM V := { entries := [], cap := cap }

/-- Cache insertion (`LruCache::put`): replace any entry with the same
key, place the pair in front, evict beyond capacity. -/
def LruCacheM.put {V : Type} (c : LruCacheM V) (k : ℕ) (v : V) : LruCacheM V :=
  { c with entries := ((k, v) :: c.entries.filter (fun e => !(e.1 == k))).take c.cap }

/-- Cache lookup (`LruCache::get`): on a hit the entry moves to the
front. -/
def LruCacheM.get {V : Type} (c : LruCacheM V) (k : ℕ) :
    Option V × LruCacheM V :=
  match c.entries.find? (fun e => e.1 == k) with
  | some e =>
    (some e.2, { c with entries := (k, e.2) :: c.entries.filter (fun x => !(x.1 == k)) })
  | none => (none, c)

/-- One `CachedEmbedder::embed` call: hash the text, return the cached
vector on a hit (the `get` promotion is inlined), otherwise compute with
the inner embedder and insert. -/
def cachedEmbed {V : Type} (h : String → ℕ) (inner : String → V)
    (c : LruCacheM V) (text : String) : V × LruCacheM V :=
  match c.entries.find? (fun e => e.1 == h text) with
  | some e =>
    (e.2, { c with entries := (h text, e.2) :: c.entries.filter (fun x => !(x.1 == h text)) })
  | none => (inner text, c.put (h text) (inner text))

/-- Run a sequence of `embed` calls, collecting the outputs. -/
def cachedEmbedRun {V : Type} (h : String → ℕ) (inner : String → V)
    (c : LruCacheM V) : List String → List V × LruCacheM V
  | [] => ([], c)
  | t :: ts =>
    let r := cachedEmbed h inner c t
    let rest := cachedEmbedRun h inner r.2 ts
    (r.1 :: rest.1, rest.2)

/-- Cache coherence relative to a universe `T` of call texts: every
cached entry is the inner embedding of some text of `T` hashing to the
entry's key. -/
def coherentIn {V : Type} (h : String → ℕ) (inner : String → V)
    (T : List String) (c : LruCacheM V) : Prop :=
  ∀ e ∈ c.entries, ∃ t0 ∈ T, h t0 = e.1 ∧ e.2 = inner t0

/-! ## Hash embedder (`src/embedding.rs`)

`HashEmbedder::embed` tokenizes, hashes each token with a 32-bit djb2
hash over its UTF-8 bytes, accumulates a signed unit into the hashed
bucket, and L2-normalizes. Real arithmetic models `f32`. -/

/-- Apostrophe character (kept by the embedding tokenizer's split). -/
def apostrophe : Char := Char.ofNat 39

/-- UTF-8 encoding of a character as a byte list (model of
`str::bytes`). -/
def charUtf8 (c : Char) : List ℕ :=
  let n := c.toNat
  if n < 128 then [n]
  else if n < 2048 then [192 + n / 64, 128 + n % 64]
  else if n < 65536 then [224 + n / 4096, 128 + n / 64 % 64, 128 + n % 64]
  else [240 + n / 262144, 128 + n / 4096 % 64, 128 + n / 64 % 64, 128 + n % 64]

/-- Stop-word table of the embedding tokenizer (`embedding.rs`,
`fn is_stop_word`). -/
def embedStopWords : List String :=
  ["the", "a", "an", "is", "are", "was", "were", "be", "been", "being",
   "have", "has", "had", "do", "does", "did", "will", "would", "could",
   "should", "may", "might", "must", "shall", "can", "need", "dare",
   "ought", "used", "to", "of", "in", "for", "on", "with", "at", "by",
   "from", "as", "into", "through", "during", "before", "after",
   "above", "below", "between", "under", "again", "further", "then",
   "once", "here", "there", "when", "where", "why", "how", "all",
   "each", "few", "more", "most", "other", "some", "such", "no", "nor",
   "not", "only", "own", "same", "so", "than", "too", "very", "just",
   "and", "but", "if", "or", "because", "until", "while", "this",
   "that", "these", "those", "what", "which", "who", "whom"]

/-- Stop-word test on a token. -/
def isStopWordEmb (t : List Char) : Bool := (embedStopWords.map String.data).contains t

/-- Tokenizer of the embedding module (`embedding.rs`, `fn tokenize`):
lower-case, split on characters that are neither alphanumeric nor an
apostrophe, keep pieces of byte length strictly greater than 2 that are
not stop words. -/
def tokenizeEmbedding (s : String) : List (List Char) :=
  (((lowerChars s).splitOnP (fun c => !c.isAlphanum && !(c == apostrophe))).filter
    (fun t => 2 < byteLen t)).filter (fun t => !isStopWordEmb t)

/-- The djb2-style 32-bit hash (`embedding.rs`, `fn simple_hash`):
`hash = hash.wrapping_mul(33).wrapping_add(byte)` from 5381, over the
token's UTF-8 bytes. -/
def simpleHash (t : List Char) : ℕ :=
  ((t.map charUtf8).flatten).foldl (fun h b => (h * 33 + b) % 2 ^ 32) 5381

/-- Add `x` to component `idx` of a vector (`vec[idx] += sign`). -/
noncomputable def bump (v : List ℝ) (idx : ℕ) (x : ℝ) : List ℝ :=
  v.mapIdx (fun i y => if i = idx then y + x else y)

/-- Pre-normalisation accumulation of `HashEmbedder::embed`: for each
token, bucket `hash mod dimension` receives `+1` or `-1` according to
bit 16 of the hash. -/
noncomputable def hashEmbedRaw (dimension : ℕ) (text : String) : List ℝ :=
  (tokenizeEmbedding text).foldl
    (fun v t =>
      let hash := simpleHash t
      bump v (hash % dimension) (if hash / 2 ^ 16 % 2 = 0 then (1 : ℝ) else -1))
    (List.replicate dimension 0)

/-- Sum of squares of a vector (the square of its L2 norm). -/
def sumSq (v : List ℝ) : ℝ := (v.map fun x => x * x).sum

/-- L2 normalisation (`embedding.rs`, `fn normalize`): divide by the
norm when it is positive, otherwise leave the vector unchanged. -/
noncomputable def normalize (v : List ℝ) : List ℝ :=
  let norm := Real.sqrt (sumSq v)
  if 0 < norm then v.map (fun x => x / norm) else v

/-- The hash embedder (`HashEmbedder::embed`): accumulate, then
normalize. -/
noncomputable def hashEmbed (dimension : ℕ) (text : String) : List ℝ :=
  normalize (hashEmbedRaw dimension text)

/-! ## Record construction in `Brain::process` (`src/lib.rs`)

Steps 1–3 of `process` build the new record: embed the input through the
cached embedder, attach the embedding, classify the tier. The fresh
`Uuid` and the wall clock are explicit parameters. -/

/-- The record built by `Brain::process` before storage: embedding
attached, tier classified. -/
noncomputable def processRecord (now : ℤ) (freshId : String) (h : String → ℕ)
    (dimension : ℕ) (c : LruCacheM (List ℝ)) (input : String)
    (ctx : Option String) : MemoryItem :=
  let embedding := (cachedEmbed h (hashEmbed dimension) c input).1
  let item := MemoryItem.new now freshId input ctx
  let item := { item with embedding := some embedding }
  { item with memory_type := classify item }

/-! ## Persistence row codec (`src/storage.rs`)

`Storage::save` serialises a `MemoryItem` into one row of the
`id, content, context, memory_type, emotion, created_at, last_accessed,
access_count, strength, embedding, tags` table; `Storage::row_to_memory`
parses a row back. The external `coredb` engine is modelled (from the
specification, section 4.8) as storing the inserted values literally:
doubling of single quotes on escape is undone by the CQL string parser,
the `strength` decimal string and the JSON `embedding`/`tags` arrays
round-trip numbers exactly (`f32` `Display`/`parse` and `serde_json` are
mutually inverse), and the empty `embedding` string written for a
missing embedding parses back to `None`, so it is modelled as `none`.
Note that the `associations` field has no column: `save` never writes it
and `row_to_memory` always returns an empty association list. -/

structure Row where
  id : String
  content : String
  context : String
  memory_type : String
  emotion : String
  created_at : ℤ
  last_accessed : ℤ
  access_count : ℤ
  strength : ℝ
  embedding : Option (List ℝ)
  tags : List String

/-- Debug rendering of a memory type (`format!("{:?}", memory_type)`). -/
def memoryTypeStr : MemoryType → String
  | MemoryType.Working => "Working"
  | MemoryType.Episodic => "Episodic"
  | MemoryType.Semantic => "Semantic"
  | MemoryType.Procedural => "Procedural"

/-- Debug rendering of an emotion (`format!("{:?}", emotion)`). -/
def emotionStr : Emotion → String
  | Emotion.Neutral => "Neutral"
  | Emotion.Positive => "Positive"
  | Emotion.Negative => "Negative"
  | Emotion.Surprise => "Surprise"

/-- Row written by `Storage::save`: the context option collapses to a
string via `unwrap_or_default`, timestamps are epoch milliseconds, and
`associations` is simply not written. -/
def toRow (item : MemoryItem) : Row :=
  { id := item.id
    content := item.content
    context := item.context.getD ""
    memory_type := memoryTypeStr item.memory_type
    emotion := emotionStr item.emotion
    created_at := item.created_at
    last_accessed := item.last_accessed
    access_count := (item.access_count : ℤ)
    strength := item.strength
    embedding := item.embedding
    tags := item.tags }

/-- Parser of `Storage::row_to_memory`: empty context becomes `None`,
unknown tier and emotion strings default to `Semantic` and `Neutral`,
the access count is narrowed to an unsigned integer, and the
associations come back empty. -/
def rowToMemory (row : Row) : MemoryItem :=
  { id := row.id
    content := row.content
    context := if row.context = "" then none else some row.context
    memory_type :=
      if row.memory_type = "Working" then MemoryType.Working
      else if row.memory_type = "Episodic" then MemoryType.Episodic
      else if row.memory_type = "Semantic" then MemoryType.Semantic
      else if row.memory_type = "Procedural" then MemoryType.Procedural
      else MemoryType.Semantic
    emotion :=
      if row.emotion = "Neutral" then Emotion.Neutral
      else if row.emotion = "Positive" then Emotion.Positive
      else if row.emotion = "Negative" then Emotion.Negative
      else if row.emotion = "Surprise" then Emotion.Surprise
      else Emotion.Neutral
    created_at := row.created_at
    last_accessed := row.last_accessed
    access_count := row.access_count.toNat
    strength := row.strength
    embedding := row.embedding
    associations := []
    tags := row.tags }

/-! ## Storage operations (`src/storage.rs`)

The persisted table is a list of rows keyed by the primary-key `id`
(`INSERT` upserts, `DELETE ... WHERE id = ...` removes, `SELECT *`
scans); this key/value behaviour of the external `coredb` engine is
modelled from the specification, section 4.8. -/

/-- Upsert a row by primary key (`Storage::save`, via `INSERT`). -/
def storageSave (store : List Row) (r : Row) : List Row :=
  if store.any (fun x => x.id == r.id) then
    store.map (fun x => if x.id == r.id then r else x)
  else
    store ++ [r]

/-- Delete a row by primary key (`Storage::delete`). -/
def storageDelete (store : List Row) (rid : String) : List Row :=
  store.filter (fun x => !(x.id == rid))

/-- Full scan and parse (`Storage::get_all`). -/
def storageGetAll (store : List Row) : List MemoryItem :=
  store.map rowToMemory

/-- Descending-strength comparison used by the `sort_by` call in
`Storage::search`. -/
def strengthGe (a b : MemoryItem) : Prop := b.strength ≤ a.strength

noncomputable instance : DecidableRel strengthGe :=
  fun _ _ => Classical.propDecidable _

instance : IsTotal MemoryItem strengthGe := ⟨fun a b => le_total b.strength a.strength⟩

instance : IsTrans MemoryItem strengthGe :=
  ⟨fun _ _ _ hab hbc => le_trans hbc hab⟩

/-- Content search (`Storage::search`): scan, filter by the case-folded
substring match unless the query is empty, sort by strength descending
(stable `sort_by`, modelled by the stable insertion sort), truncate. -/
noncomputable def storageSearch (store : List Row) (q : String) (limit : ℕ) :
    List MemoryItem :=
  let items := storageGetAll store
  let items := if q = "" then items else items.filter (matchesQuery q)
  (items.insertionSort strengthGe).take limit

/-! ## Forgetting curve (`src/forgetting.rs`)

`calculate_decay` with `base_decay_rate = 0.1`, `min_retention = 0.1`;
`chrono` duration accessors truncate toward zero, modelled by integer
division of millisecond differences. -/

/-- Decay multiplier for a memory (`ForgettingCurve::calculate_decay`). -/
noncomputable def calculateDecay (now : ℤ) (item : MemoryItem) : ℝ :=
  let hoursSince : ℝ := ((now - item.last_accessed) / 3600000 : ℤ)
  let daysSince : ℝ := hoursSince / 24
  let accessStability : ℝ := max (Real.log (item.access_count : ℝ)) 1
  let strengthStability : ℝ := item.strength
  let ageDays : ℝ := ((now - item.created_at) / 86400000 : ℤ)
  let ageStability : ℝ := if 7 < ageDays then 1.2 else 1
  let stability := accessStability * strengthStability * ageStability
  let retention := Real.exp (-daysSince * 0.1 / stability)
  max retention 0.1

/-- Strength decay (`MemoryItem::decay`). -/
noncomputable def MemoryItem.decayBy (item : MemoryItem) (factor : ℝ) : MemoryItem :=
  { item with strength := item.strength * factor }

open Classical in
/-- Loop body of `EpisodicMemory::apply_forgetting`: decay the item,
delete it when forgotten, otherwise write it back. -/
noncomputable def forgettingStep (now : ℤ) (st : List Row) (item : MemoryItem) :
    List Row :=
  let item' := item.decayBy (calculateDecay now item)
  if item'.is_forgotten then storageDelete st item'.id
  else storageSave st (toRow item')

/-- Forgetting pass of the episodic tier
(`EpisodicMemory::apply_forgetting`): snapshot the table, then decay and
delete/update each record. -/
noncomputable def episodicApplyForgetting (now : ℤ) (store : List Row) : List Row :=
  (storageGetAll store).foldl (forgettingStep now) store

open Classical in
/-- Loop body of `SemanticMemory::apply_forgetting`: the semantic tier
softens the multiplier to `decay * 0.5 + 0.5`. -/
noncomputable def semanticForgettingStep (now : ℤ) (st : List Row) (item : MemoryItem) :
    List Row :=
  let item' := item.decayBy (calculateDecay now item * 0.5 + 0.5)
  if item'.is_forgotten then storageDelete st item'.id
  else storageSave st (toRow item')

/-- Forgetting pass of the semantic tier
(`SemanticMemory::apply_forgetting`). -/
noncomputable def semanticApplyForgetting (now : ℤ) (store : List Row) : List Row :=
  (storageGetAll store).foldl (semanticForgettingStep now) store

/-- A record id present in a table. -/
def presentIn (store : List Row) (rid : String) : Prop :=
  ∃ row ∈ store, row.id = rid

/-- Fresh episodic record used in the C4 witness: accessed just now,
full strength. -/
noncomputable def recFresh : MemoryItem :=
  { id := "w1", content := "fresh", context := none
    memory_type := MemoryType.Episodic, emotion := Emotion.Neutral
    created_at := 0, last_accessed := 0, access_count := 1
    strength := 1, embedding := none, associations := [], tags := [] }

/-- Emotional record used in the C4 counterexample: positive emotion,
strength 0.3, created and last accessed 300 days before the pass. -/
noncomputable def recEmotional : MemoryItem :=
  { id := "c4", content := "great news", context := none
    memory_type := MemoryType.Episodic, emotion := Emotion.Positive
    created_at := 0, last_accessed := 0, access_count := 1
    strength := 0.3, embedding := none, associations := [], tags := [] }

/-! ## Tier stores and the Brain (`src/episodic.rs`, `src/semantic.rs`,
`src/procedural.rs`, `src/lib.rs`) -/

/-- Store into the episodic tier (`EpisodicMemory::store`): force the
tier tag and save. -/
noncomputable def episodicStore (store : List Row) (item : MemoryItem) : List Row :=
  storageSave store (toRow { item with memory_type := MemoryType.Episodic })

/-- Store into the procedural tier (`ProceduralMemory::store`). -/
noncomputable def proceduralStore (store : List Row) (item : MemoryItem) : List Row :=
  storageSave store (toRow { item with memory_type := MemoryType.Procedural })

open Classical in
/-- Duplicate detection of the semantic tier
(`SemanticMemory::find_similar`): take the top search hit for the
content and accept it when either content contains the other,
case-insensitively. -/
noncomputable def semanticFindSimilar (store : List Row) (content : String) :
    Option MemoryItem :=
  match storageSearch store content 1 with
  | [] => none
  | item :: _ =>
    if strContains (lowerChars content) (lowerChars item.content)
        ∨ strContains (lowerChars item.content) (lowerChars content) then some item
    else none

/-- Store into the semantic tier (`SemanticMemory::store`): on a
duplicate match the existing record is accessed (strength bumped by 0.1)
and written back, and the incoming item is dropped; otherwise the item
is saved. -/
noncomputable def semanticStore (now : ℤ) (store : List Row) (item : MemoryItem) :
    List Row :=
  let item := { item with memory_type := MemoryType.Semantic }
  match semanticFindSimilar store item.content with
  | some existing => storageSave store (toRow (existing.access now))
  | none => storageSave store (toRow item)

/-- The Brain's mutable state (`struct Brain`): working memory plus the
three durable tiers. -/
structure Brain where
  working : WorkingMemory
  episodic : List Row
  semantic : List Row
  procedural : List Row

/-- Dispatch of `Brain::consolidate_memory`: store into the tier named
by the item's `memory_type`; items typed `Working` stay in working
memory (no store happens). -/
noncomputable def consolidateMemory (now : ℤ) (b : Brain) (item : MemoryItem) : Brain :=
  match item.memory_type with
  | MemoryType.Episodic => { b with episodic := episodicStore b.episodic item }
  | MemoryType.Semantic => { b with semantic := semanticStore now b.semantic item }
  | MemoryType.Procedural => { b with procedural := proceduralStore b.procedural item }
  | MemoryType.Working => b

/-- Sleep phase (`Brain::sleep`): consolidate the important working
items, apply forgetting to the episodic and semantic tiers, clear
working memory. -/
noncomputable def Brain.sleep (now : ℤ) (b : Brain) : Brain :=
  let b1 := (b.working.getImportant).foldl (consolidateMemory now) b
  let b2 := { b1 with episodic := episodicApplyForgetting now b1.episodic }
  let b3 := { b2 with semantic := semanticApplyForgetting now b2.semantic }
  { b3 with working := b3.working.clear }

/-- Clamp to the unit interval (`new_strength.clamp(0.0, 1.0)`). -/
noncomputable def clampUnit (x : ℝ) : ℝ := min (max x 0) 1

/-- Strength update (`Brain::update_strength`): scan the episodic, then
semantic, then procedural tier for the first record whose id starts with
the prefix; set its strength to the clamped value and store it back
through that tier's `store`; report failure when no tier matches. -/
noncomputable def Brain.updateStrength (b : Brain) (now : ℤ) (idPre : String)
    (newStrength : ℝ) : Brain × Bool :=
  let strength := clampUnit newStrength
  match (storageSearch b.episodic "" 100000).find? (fun i => strStartsWith i.id idPre) with
  | some item =>
    ({ b with episodic := episodicStore b.episodic { item with strength := strength } }, true)
  | none =>
    match (storageSearch b.semantic "" 100000).find? (fun i => strStartsWith i.id idPre) with
    | some item =>
      ({ b with semantic := semanticStore now b.semantic { item with strength := strength } },
        true)
    | none =>
      match (storageSearch b.procedural "" 100000).find?
          (fun i => strStartsWith i.id idPre) with
      | some item =>
        ({ b with procedural :=
            proceduralStore b.procedural { item with strength := strength } }, true)
      | none => (b, false)

/-- Consolidation-worthy record sitting in working memory for the C1
failing input: positive emotion and strength 0.8, classified semantic
before the push. -/
noncomputable def recWorthy : MemoryItem :=
  { id := "s1", content := "Rust is great", context := none
    memory_type := MemoryType.Semantic, emotion := Emotion.Positive
    created_at := 0, last_accessed := 0, access_count := 1
    strength := 0.8, embedding := none, associations := [], tags := [] }

/-- Brain state with empty tiers and `recWorthy` pushed into working
memory (as `Brain::process` step 4 does). -/
noncomputable def brainWithWorthy : Brain :=
  { working := ((WorkingMemory.mkNew 7).push recWorthy).1
    episodic := [], semantic := [], procedural := [] }

/-- Semantic-tier record for the C5 failing input. -/
noncomputable def recSem : MemoryItem :=
  { id := "aaaa", content := "rust ownership", context := none
    memory_type := MemoryType.Semantic, emotion := Emotion.Neutral
    created_at := 0, last_accessed := 0, access_count := 1
    strength := 0.5, embedding := none, associations := [], tags := [] }

/-- Brain state holding exactly `recSem` in the semantic tier. -/
noncomputable def brainSem : Brain :=
  { working := WorkingMemory.mkNew 7
    episodic := [], semantic := [toRow recSem], procedural := [] }

/-! ## Theorems -/

/-- Claim C6: with the deque exactly at a positive capacity, `push`
evicts and returns the oldest (front) item and the length stays at
capacity; a search for a query that matched only the evicted item then
returns empty; below capacity, `push` returns no eviction. -/
theorem workingMemory_push_fifo (wm : WorkingMemory) (r : MemoryItem) (q : String)
    (hcap : 0 < wm.capacity) :
    (wm.items.length = wm.capacity →
      (wm.push r).2 = wm.items.head? ∧
      ((wm.push r).2.elim True fun ev =>
        (wm.push r).1.items.length = wm.capacity ∧
        (matchesQuery q ev = true →
          (∀ x ∈ wm.items.tail, matchesQuery q x = false) →
          matchesQuery q r = false →
          ((wm.push r).1.search q = []))))
    ∧ (wm.items.length < wm.capacity → (wm.push r).2 = none) := by
  constructor
  · intro hlen
    have hge : wm.capacity ≤ wm.items.length := le_of_eq hlen.symm
    constructor
    · simp [WorkingMemory.push, if_pos hge]
    · cases hhead : wm.items.head? with
      | none =>
        simp [WorkingMemory.push, if_pos hge, hhead]
      | some ev =>
        simp only [WorkingMemory.push, if_pos hge, hhead, Option.elim]
        have hne : wm.items ≠ [] := by
          intro h
          rw [h] at hhead
          simp at hhead
        constructor
        · have : wm.items.tail.length = wm.items.length - 1 := List.length_tail _
          simp [this, hlen]
          omega
        · intro _ htail hr
          simp only [WorkingMemory.search]
          rw [List.filter_eq_nil_iff]
          intro x hx
          rcases List.mem_append.mp hx with hxt | hxr
          · simp [htail x hxt]
          · have hxeq : x = { r with memory_type := MemoryType.Working } := by
              simpa using hxr
            have : matchesQuery q { r with memory_type := MemoryType.Working }
                = matchesQuery q r := rfl
            simp [hxeq, this, hr]
  · intro hlt
    have : ¬ wm.capacity ≤ wm.items.length := not_le_of_lt hlt
    simp [WorkingMemory.push, if_neg this]

/-- Witness for C6: a concrete working memory of capacity 2 holding two
items; pushing a third evicts the first, keeps the length at 2, and a
search for the evicted content comes back empty. -/
theorem workingMemory_push_fifo_witness :
    let mk := fun (c : String) => MemoryItem.new 0 c c none
    let wm : WorkingMemory :=
      { items := [mk "alpha", mk "beta"], capacity := 2, importance_threshold := 0.7 }
    (0 < wm.capacity) ∧
    (wm.items.length = wm.capacity) ∧
    ((wm.push (mk "gamma")).2 = some { mk "alpha" with memory_type := MemoryType.Working }) ∧
    ((wm.push (mk "gamma")).1.search "alpha" = []) := by
  intro mk wm
  refine ⟨by decide, by decide, ?_, ?_⟩
  · have h := (workingMemory_push_fifo wm (mk "gamma") "alpha" (by decide)).1 (by decide)
    have := h.1
    simpa [wm, mk, MemoryItem.new] using this
  · have h := (workingMemory_push_fifo wm (mk "gamma") "alpha" (by decide)).1 (by decide)
    rcases h with ⟨hev, hrest⟩
    have hhead : wm.items.head? = some (mk "alpha") := by simp [wm]
    rw [hhead] at hev
    rw [hev] at hrest
    simp only [Option.elim] at hrest
    exact hrest.2 (by decide) (by decide) (by decide)

theorem bloom_add_preserves_params {α : Type} (hash2 : α → ℕ × ℕ)
    (f : BloomFilter) (x : α) :
    (f.add hash2 x).size = f.size ∧ (f.add hash2 x).num_hashes = f.num_hashes := by
  constructor <;> rfl

theorem bloom_addAll_preserves_params {α : Type} (hash2 : α → ℕ × ℕ)
    (f : BloomFilter) (xs : List α) :
    (f.addAll hash2 xs).size = f.size ∧ (f.addAll hash2 xs).num_hashes = f.num_hashes := by
  induction xs generalizing f with
  | nil => exact ⟨rfl, rfl⟩
  | cons y ys ih =>
    simpa [BloomFilter.addAll, BloomFilter.add] using ih (f.add hash2 y)

theorem bloom_hashes_stable_under_addAll {α : Type} (hash2 : α → ℕ × ℕ)
    (f : BloomFilter) (xs : List α) (x : α) :
    BloomFilter.hashes hash2 (f.addAll hash2 xs) x = BloomFilter.hashes hash2 f x := by
  have h := bloom_addAll_preserves_params hash2 f xs
  simp [BloomFilter.hashes, h.1, h.2]

theorem bloom_bits_monotone {α : Type} (hash2 : α → ℕ × ℕ)
    (f : BloomFilter) (xs : List α) (i : ℕ) (hi : f.bits i = true) :
    (f.addAll hash2 xs).bits i = true := by
  induction xs generalizing f with
  | nil => exact hi
  | cons y ys ih =>
    refine ih (f.add hash2 y) ?_
    simp only [BloomFilter.add]
    split <;> simp [hi]

/-- Claim C7: for any item and any bloom filter state of positive size,
`contains` returns true immediately after `add`, and continues to return
true after any further sequence of additions. -/
theorem bloom_no_false_negatives {α : Type} (hash2 : α → ℕ × ℕ)
    (f : BloomFilter) (x : α) (ops : List α) (hsize : 0 < f.size) :
    ((f.add hash2 x).containsItem hash2 x = true) ∧
    (((f.add hash2 x).addAll hash2 ops).containsItem hash2 x = true) := by
  have hadd : (f.add hash2 x).containsItem hash2 x = true := by
    simp only [BloomFilter.containsItem, List.all_eq_true]
    intro i hi
    have hsame : BloomFilter.hashes hash2 (f.add hash2 x) x
        = BloomFilter.hashes hash2 f x := by
      simp [BloomFilter.hashes, BloomFilter.add]
    rw [hsame] at hi
    simp [BloomFilter.add, hi]
  refine ⟨hadd, ?_⟩
  simp only [BloomFilter.containsItem, List.all_eq_true]
  intro i hi
  rw [bloom_hashes_stable_under_addAll] at hi
  have hbit : (f.add hash2 x).bits i = true := by
    have hsame : BloomFilter.hashes hash2 (f.add hash2 x) x
        = BloomFilter.hashes hash2 f x := by
      simp [BloomFilter.hashes, BloomFilter.add]
    simp only [BloomFilter.containsItem, List.all_eq_true] at hadd
    exact hadd i (by rw [hsame]; exact hi)
  exact bloom_bits_monotone hash2 _ ops i hbit

/-- Witness for C7: a concrete 64-bit filter with 3 hash rounds; after
adding "hello", membership of "hello" holds and survives further adds. -/
theorem bloom_no_false_negatives_witness :
    let hash2 : String → ℕ × ℕ := fun s => (s.length * 37, s.length * 101 + 5)
    let f : BloomFilter := { bits := fun _ => false, size := 64, num_hashes := 3, count := 0 }
    (0 < f.size) ∧
    ((f.add hash2 "hello").containsItem hash2 "hello" = true) ∧
    (((f.add hash2 "hello").addAll hash2 ["world", "rust"]).containsItem hash2 "hello" = true) := by
  intro hash2 f
  have h := bloom_no_false_negatives hash2 f "hello" ["world", "rust"] (by decide)
  exact ⟨by decide, h.1, h.2⟩

theorem splitOnP_takeWhile_char (p : α → Bool) (l : List α) :
    l.splitOnP (fun a => !p a) =
      l.takeWhile p ::
        (match l.dropWhile p with
         | [] => []
         | _ :: rest => rest.splitOnP (fun a => !p a)) := by
  induction l with
  | nil => simp [List.splitOnP_nil]
  | cons a l ih =>
    by_cases hpa : p a = true
    · rw [List.splitOnP_cons]
      simp only [hpa, Bool.not_true, List.takeWhile_cons_of_pos hpa,
        List.dropWhile_cons_of_pos hpa]
      rw [ih]
      simp [List.modifyHead]
    · have hpa' : p a = false := by simpa using hpa
      rw [List.splitOnP_cons]
      simp [hpa', List.takeWhile_cons_of_neg hpa, List.dropWhile_cons_of_neg hpa]

theorem runsAux_characterisation (p : α → Bool) (l : List α) (acc : List α) :
    runsAux p l acc =
      (if (acc.reverse ++ l.takeWhile p).isEmpty then []
       else [acc.reverse ++ l.takeWhile p]) ++
        (match l.dropWhile p with
         | [] => []
         | _ :: rest => runsAux p rest []) := by
  induction l generalizing acc with
  | nil =>
    simp only [runsAux, List.takeWhile_nil, List.dropWhile_nil, List.append_nil]
    by_cases h : acc.isEmpty
    · simp [h, List.isEmpty_iff.mp h]
    · have : acc.reverse.isEmpty = false := by
        cases acc <;> simp_all
      simp [h, this]
  | cons a l ih =>
    by_cases hpa : p a = true
    · simp only [runsAux, hpa, if_true]
      rw [ih (a :: acc)]
      simp [List.takeWhile_cons_of_pos hpa, List.dropWhile_cons_of_pos hpa,
        List.reverse_cons, List.append_assoc]
    · have hpa' : p a = false := by simpa using hpa
      simp only [runsAux, hpa', Bool.false_eq_true, if_false]
      rw [List.takeWhile_cons_of_neg (by simp [hpa']),
        List.dropWhile_cons_of_neg (by simp [hpa'])]
      simp only [List.append_nil]
      by_cases h : acc.isEmpty
      · simp [h, List.isEmpty_iff.mp h, runsP]
      · have : acc.reverse.isEmpty = false := by
          cases acc <;> simp_all
        simp [h, this, runsP]

theorem dropWhile_head_false (p : α → Bool) (l : List α) (b : α) (rest : List α)
    (h : l.dropWhile p = b :: rest) : p b = false := by
  induction l with
  | nil => simp at h
  | cons a l ih =>
    by_cases hpa : p a = true
    · rw [List.dropWhile_cons_of_pos hpa] at h
      exact ih h
    · have hpa' : p a = false := by simpa using hpa
      rw [List.dropWhile_cons_of_neg (by simp [hpa'])] at h
      cases h
      exact hpa'

theorem filter_splitOnP_eq_runsP_aux (p : α → Bool) :
    ∀ (n : ℕ) (l : List α), l.length ≤ n →
      (l.splitOnP (fun a => !p a)).filter (fun t => !t.isEmpty) = runsP p l := by
  intro n
  induction n with
  | zero =>
    intro l hl
    have : l = [] := List.length_eq_zero.mp (Nat.le_zero.mp hl)
    subst this
    simp [List.splitOnP_nil, runsP, runsAux]
  | succ n ih =>
    intro l hl
    rw [splitOnP_takeWhile_char p l, List.filter_cons]
    rw [runsP, runsAux_characterisation p l []]
    simp only [List.reverse_nil, List.nil_append]
    have hrest :
        (match l.dropWhile p with
          | [] => ([] : List (List α))
          | _ :: rest => rest.splitOnP (fun a => !p a)).filter (fun t => !t.isEmpty) =
        (match l.dropWhile p with
          | [] => ([] : List (List α))
          | _ :: rest => runsAux p rest []) := by
      cases hdrop : l.dropWhile p with
      | nil => simp
      | cons b rest =>
        have hlen : rest.length ≤ n := by
          have h1 : (l.dropWhile p).length ≤ l.length :=
            List.Sublist.length_le (List.dropWhile_sublist p)
          rw [hdrop] at h1
          simp only [List.length_cons] at h1
          omega
        simpa [runsP] using ih rest hlen
    rw [hrest]
    by_cases hemp : (l.takeWhile p).isEmpty
    · simp [hemp]
    · have hemp' : (l.takeWhile p).isEmpty = false := by simp_all
      simp [hemp']

theorem filter_splitOnP_eq_runsP (p : α → Bool) (l : List α) :
    (l.splitOnP (fun a => !p a)).filter (fun t => !t.isEmpty) = runsP p l :=
  filter_splitOnP_eq_runsP_aux p l.length l le_rfl

/-- Claim C9 (amended): the index tokenizer yields exactly the
case-folded maximal runs of alphanumeric-or-underscore code points of
UTF-8 byte length at least 2. -/
theorem tokenize_eq_runs (s : String) :
    tokenize s =
      (runsP (fun c => c.isAlphanum || c == underscore) (lowerChars s)).filter
        (fun t => 2 ≤ byteLen t) := by
  rw [tokenize]
  have hpred : (fun c => !c.isAlphanum && !(c == underscore)) =
      (fun c => !(c.isAlphanum || c == underscore)) := by
    funext c
    simp [Bool.not_or]
  rw [hpred, ← filter_splitOnP_eq_runsP (fun c => c.isAlphanum || c == underscore)
    (lowerChars s), List.filter_filter]
  refine List.filter_congr ?_
  intro t _
  by_cases h : 2 ≤ byteLen t
  · have : t ≠ [] := by
      intro he
      rw [he] at h
      simp [byteLen] at h
    simp [h, this]
  · simp [h]

/-- Claim C9 counterexample: on `"a_b"` the code keeps the single token
`a_b`, while the claim's tokens (maximal runs of letters or digits of
length at least 2) are empty: underscore is not a split character in the
code. -/
theorem tokenize_counterexample :
    tokenize "a_b" = [['a', '_', 'b']] ∧
    (runsP (fun c => c.isAlphanum) (lowerChars "a_b")).filter
      (fun t => 2 ≤ t.length) = [] ∧
    tokenize "a_b" ≠
      (runsP (fun c => c.isAlphanum) (lowerChars "a_b")).filter
        (fun t => 2 ≤ t.length) := by
  refine ⟨by decide, by decide, by decide⟩

/-- Claim C8 (amended): for every admissible iteration order of the
score map, `search_ranked` returns at most `limit` pairs, sorted by
score descending, and every returned pair carries exactly the number of
query tokens its document contains (a positive count); the order of
equal-score entries, however, follows the hash map's per-instance
iteration order (see the counterexample). -/
theorem searchRanked_spec {ι : Type} [DecidableEq ι] (idx : List Char → List ι)
    (q : String) (limit : ℕ) (order : List ι)
    (h : admissibleOrder idx (tokenize q) order) :
    (searchRankedO idx q limit order).length ≤ limit ∧
    List.Pairwise (fun a b : ι × ℕ => b.2 ≤ a.2) (searchRankedO idx q limit order) ∧
    (∀ p ∈ searchRankedO idx q limit order,
      p.2 = score idx (tokenize q) p.1 ∧ 0 < p.2) := by
  by_cases hemp : (tokenize q).isEmpty
  · refine ⟨?_, ?_, ?_⟩ <;> simp [searchRankedO, hemp]
  · have hunfold : searchRankedO idx q limit order =
        ((order.map (fun d => (d, score idx (tokenize q) d))).insertionSort
          scoreGe).take limit := by
      simp [searchRankedO, hemp]
    refine ⟨?_, ?_, ?_⟩
    · rw [hunfold, List.length_take]
      exact inf_le_left
    · rw [hunfold]
      have hsorted : List.Pairwise scoreGe
          ((order.map (fun d => (d, score idx (tokenize q) d))).insertionSort scoreGe) :=
        List.sorted_insertionSort scoreGe _
      exact hsorted.sublist (List.take_sublist limit _)
    · intro p hp
      rw [hunfold] at hp
      have hp2 : p ∈ (order.map (fun d => (d, score idx (tokenize q) d))).insertionSort
          scoreGe :=
        List.Sublist.mem hp (List.take_sublist limit _)
      have hp3 : p ∈ order.map (fun d => (d, score idx (tokenize q) d)) :=
        (List.perm_insertionSort scoreGe _).mem_iff.mp hp2
      rcases List.mem_map.mp hp3 with ⟨d, hd, rfl⟩
      exact ⟨rfl, (h.2 d).mp hd⟩

/-- Witness for C8 (amended): a concrete two-document index queried with
"rust", iteration order `[1, 2]`; the conclusions of the theorem hold. -/
theorem searchRanked_spec_witness :
    let idx : List Char → List ℕ := fun t => if t = ['r', 'u', 's', 't'] then [1, 2] else []
    admissibleOrder idx (tokenize "rust") [1, 2] ∧
    ((searchRankedO idx "rust" 1 [1, 2]).length ≤ 1 ∧
      List.Pairwise (fun a b : ℕ × ℕ => b.2 ≤ a.2) (searchRankedO idx "rust" 1 [1, 2]) ∧
      (∀ p ∈ searchRankedO idx "rust" 1 [1, 2],
        p.2 = score idx (tokenize "rust") p.1 ∧ 0 < p.2)) := by
  intro idx
  have htok : tokenize "rust" = [['r', 'u', 's', 't']] := by decide
  have hadm : admissibleOrder idx (tokenize "rust") [1, 2] := by
    constructor
    · decide
    · intro d
      rw [htok]
      constructor
      · intro hd
        have hd' : d = 1 ∨ d = 2 := by simpa using hd
        rcases hd' with rfl | rfl
        · simp [score, idx]
        · simp [score, idx]
      · intro hd
        by_cases h1 : d = 1
        · simp [h1]
        · by_cases h2 : d = 2
          · simp [h2]
          · exfalso
            simp [score, idx, h1, h2] at hd
  exact ⟨hadm, searchRanked_spec idx "rust" 1 [1, 2] hadm⟩

/-- Claim C8 counterexample: on the same index state and query, two
admissible iteration orders of the per-call score hash map produce
different output orders for tied scores, so the output is not a
deterministic function of the index state and the operation sequence. -/
theorem searchRanked_tie_nondeterminism :
    let idx : List Char → List ℕ := fun t => if t = ['r', 'u', 's', 't'] then [1, 2] else []
    searchRankedO idx "rust" 10 [1, 2] = [(1, 1), (2, 1)] ∧
    searchRankedO idx "rust" 10 [2, 1] = [(2, 1), (1, 1)] ∧
    searchRankedO idx "rust" 10 [1, 2] ≠ searchRankedO idx "rust" 10 [2, 1] := by
  refine ⟨by decide, by decide, by decide⟩

theorem cachedEmbed_step {V : Type} (h : String → ℕ) (inner : String → V)
    (T : List String) (c : LruCacheM V) (t : String) (ht : t ∈ T)
    (hinj : ∀ t1 ∈ T, ∀ t2 ∈ T, h t1 = h t2 → t1 = t2)
    (hc : coherentIn h inner T c) :
    (cachedEmbed h inner c t).1 = inner t ∧
    coherentIn h inner T (cachedEmbed h inner c t).2 := by
  simp only [cachedEmbed]
  cases hfind : c.entries.find? (fun e => e.1 == h t) with
  | none =>
    refine ⟨rfl, ?_⟩
    intro e he
    simp only [LruCacheM.put] at he
    have he2 : e ∈ (h t, inner t) :: c.entries.filter (fun x => !(x.1 == h t)) :=
      List.Sublist.mem he (List.take_sublist _ _)
    rcases List.mem_cons.mp he2 with rfl | hmem
    · exact ⟨t, ht, rfl, rfl⟩
    · exact hc e (List.mem_of_mem_filter hmem)
  | some e0 =>
    have hkey : e0.1 = h t := by
      have := List.find?_some hfind
      simpa using this
    rcases hc e0 (List.mem_of_find?_eq_some hfind) with ⟨t0, ht0, hh0, hv0⟩
    have ht0t : t0 = t := hinj t0 ht0 t ht (by rw [hh0, hkey])
    constructor
    · show e0.2 = inner t
      rw [hv0, ht0t]
    · intro e he
      have he2 : e ∈ (h t, e0.2) :: c.entries.filter (fun x => !(x.1 == h t)) := he
      rcases List.mem_cons.mp he2 with rfl | hmem
      · exact ⟨t, ht, rfl, by rw [hv0, ht0t]⟩
      · exact hc e (List.mem_of_mem_filter hmem)

theorem cachedEmbedRun_coherent {V : Type} (h : String → ℕ) (inner : String → V)
    (T : List String) (hinj : ∀ t1 ∈ T, ∀ t2 ∈ T, h t1 = h t2 → t1 = t2) :
    ∀ (ts : List String) (c : LruCacheM V), (∀ t ∈ ts, t ∈ T) →
      coherentIn h inner T c →
      (cachedEmbedRun h inner c ts).1 = ts.map inner := by
  intro ts
  induction ts with
  | nil => intro c _ _; rfl
  | cons t ts ih =>
    intro c hsub hc
    have hstep := cachedEmbed_step h inner T c t (hsub t (by simp)) hinj hc
    simp only [cachedEmbedRun, List.map_cons]
    rw [hstep.1]
    rw [ih (cachedEmbed h inner c t).2 (fun x hx => hsub x (by simp [hx])) hstep.2]

/-- Claim C10: starting from an empty cache of any capacity, if the
distinct texts of a call sequence have pairwise distinct hash keys, then
every `CachedEmbedder::embed` call in the sequence returns exactly what
the uncached inner embedder returns for its text, regardless of cache
hits or evictions. -/
theorem cachedEmbedder_refines_inner {V : Type} (h : String → ℕ)
    (inner : String → V) (cap : ℕ) (texts : List String)
    (hinj : ∀ t1 ∈ texts, ∀ t2 ∈ texts, h t1 = h t2 → t1 = t2) :
    (cachedEmbedRun h inner (LruCacheM.empty V cap) texts).1 = texts.map inner := by
  refine cachedEmbedRun_coherent h inner texts hinj texts (LruCacheM.empty V cap)
    (fun t ht => ht) ?_
  intro e he
  simp [LruCacheM.empty] at he

/-- Witness for C10: a capacity-1 cache forcing an eviction between two
occurrences of the same text; the three calls all return the inner
embeddings. -/
theorem cachedEmbedder_refines_inner_witness :
    (∀ t1 ∈ ["a", "bb", "a"], ∀ t2 ∈ ["a", "bb", "a"],
      String.length t1 = String.length t2 → t1 = t2) ∧
    (cachedEmbedRun String.length (fun t => t.length * 10)
      (LruCacheM.empty ℕ 1) ["a", "bb", "a"]).1 =
      List.map (fun t => String.length t * 10) ["a", "bb", "a"] := by
  constructor
  · decide
  · exact cachedEmbedder_refines_inner String.length (fun t => t.length * 10) 1
      ["a", "bb", "a"] (by decide)

theorem length_bump (v : List ℝ) (idx : ℕ) (x : ℝ) : (bump v idx x).length = v.length := by
  simp [bump]

theorem length_hashEmbedRaw (dimension : ℕ) (text : String) :
    (hashEmbedRaw dimension text).length = dimension := by
  rw [hashEmbedRaw]
  have hgen : ∀ (toks : List (List Char)) (v : List ℝ),
      (toks.foldl (fun v t =>
        let hash := simpleHash t
        bump v (hash % dimension) (if hash / 2 ^ 16 % 2 = 0 then (1 : ℝ) else -1)) v).length
        = v.length := by
    intro toks
    induction toks with
    | nil => intro v; rfl
    | cons t ts ih =>
      intro v
      rw [List.foldl_cons, ih]
      exact length_bump _ _ _
  rw [hgen, List.length_replicate]

theorem length_normalize (v : List ℝ) : (normalize v).length = v.length := by
  rw [normalize]
  split <;> simp

theorem sumSq_nonneg (v : List ℝ) : 0 ≤ sumSq v := by
  induction v with
  | nil => simp [sumSq]
  | cons x v ih =>
    simp only [sumSq, List.map_cons, List.sum_cons]
    have : 0 ≤ x * x := mul_self_nonneg x
    exact add_nonneg this ih

theorem sumSq_map_div (v : List ℝ) (c : ℝ) :
    sumSq (v.map fun x => x / c) = sumSq v / c ^ 2 := by
  induction v with
  | nil => simp [sumSq]
  | cons x v ih =>
    simp only [sumSq, List.map_cons, List.sum_cons] at *
    rw [ih, add_div, div_mul_div_comm]
    ring_nf

theorem sumSq_eq_zero (v : List ℝ) (h : sumSq v = 0) :
    v = List.replicate v.length 0 := by
  induction v with
  | nil => simp
  | cons x v ih =>
    simp only [sumSq, List.map_cons, List.sum_cons] at h
    have hx : 0 ≤ x * x := mul_self_nonneg x
    have hv : 0 ≤ sumSq v := sumSq_nonneg v
    have hx0 : x * x = 0 := by
      have : x * x ≤ 0 := by
        have : x * x + sumSq v = 0 := h
        linarith
      linarith
    have hx' : x = 0 := by
      rcases mul_self_eq_zero.mp hx0 with rfl
      rfl
    have hv0 : sumSq v = 0 := by
      have : x * x + sumSq v = 0 := h
      linarith
    rw [hx', ih hv0]
    simp [List.replicate_succ]

theorem sumSq_normalize (v : List ℝ) (h : sumSq v ≠ 0) :
    Real.sqrt (sumSq (normalize v)) = 1 := by
  have hpos : 0 < sumSq v := lt_of_le_of_ne (sumSq_nonneg v) (Ne.symm h)
  have hsq : 0 < Real.sqrt (sumSq v) := Real.sqrt_pos.mpr hpos
  rw [normalize]
  simp only [hsq, if_pos]
  rw [sumSq_map_div, Real.sq_sqrt (le_of_lt hpos), div_self (ne_of_gt hpos),
    Real.sqrt_one]

theorem normalize_zero_vector (v : List ℝ) (h : sumSq v = 0) : normalize v = v := by
  rw [normalize]
  simp [h, Real.sqrt_zero]

theorem hashEmbed_length (dimension : ℕ) (text : String) :
    (hashEmbed dimension text).length = dimension := by
  rw [hashEmbed, length_normalize, length_hashEmbedRaw]

theorem hashEmbed_unit_norm (dimension : ℕ) (text : String)
    (h : hashEmbed dimension text ≠ List.replicate dimension 0) :
    Real.sqrt (sumSq (hashEmbed dimension text)) = 1 := by
  by_cases hz : sumSq (hashEmbedRaw dimension text) = 0
  · exfalso
    apply h
    rw [hashEmbed, normalize_zero_vector _ hz]
    have := sumSq_eq_zero _ hz
    rwa [length_hashEmbedRaw] at this
  · rw [hashEmbed]
    exact sumSq_normalize _ hz

/-- Claim C3 (amended): for every record built by `Brain::process` (over
any cache state whose entries are hash-embedder outputs), the attached
embedding has length equal to the embedder's dimension, and its L2 norm
is exactly 1 unless it is the all-zero vector; the all-zero case does
occur (see the counterexample) when the input has no tokens. -/
theorem processRecord_embedding_invariant (now : ℤ) (freshId : String)
    (h : String → ℕ) (dimension : ℕ) (c : LruCacheM (List ℝ)) (input : String)
    (ctx : Option String)
    (hcoh : ∀ e ∈ c.entries, ∃ t, e.2 = hashEmbed dimension t) :
    ∃ v, (processRecord now freshId h dimension c input ctx).embedding = some v ∧
      v.length = dimension ∧
      (v ≠ List.replicate dimension 0 → Real.sqrt (sumSq v) = 1) := by
  refine ⟨(cachedEmbed h (hashEmbed dimension) c input).1, rfl, ?_⟩
  have hval : ∃ t, (cachedEmbed h (hashEmbed dimension) c input).1 =
      hashEmbed dimension t := by
    rw [cachedEmbed]
    cases hfind : c.entries.find? (fun e => e.1 == h input) with
    | none => exact ⟨input, rfl⟩
    | some e0 =>
      rcases hcoh e0 (List.mem_of_find?_eq_some hfind) with ⟨t, ht⟩
      exact ⟨t, ht⟩
  rcases hval with ⟨t, ht⟩
  rw [ht]
  exact ⟨hashEmbed_length dimension t, hashEmbed_unit_norm dimension t⟩

/-- Witness for C3 (amended): the empty cache is coherent and the
conclusion holds for a concrete ingest. -/
theorem processRecord_embedding_invariant_witness :
    (∀ e ∈ (LruCacheM.empty (List ℝ) 10000).entries, ∃ t, e.2 = hashEmbed 256 t) ∧
    (∃ v, (processRecord 0 "id1" (fun _ => 0) 256 (LruCacheM.empty (List ℝ) 10000)
        "memory systems" none).embedding = some v ∧
      v.length = 256 ∧
      (v ≠ List.replicate 256 0 → Real.sqrt (sumSq v) = 1)) := by
  constructor
  · intro e he
    exact absurd he (List.not_mem_nil e)
  · exact processRecord_embedding_invariant 0 "id1" (fun _ => 0) 256
      (LruCacheM.empty (List ℝ) 10000) "memory systems" none
      (by intro e he; exact absurd he (List.not_mem_nil e))

/-- Claim C3 counterexample: processing the empty input attaches the
all-zero embedding, whose L2 norm is 0, not within `1e-4` of 1. -/
theorem processRecord_zero_embedding :
    (processRecord 0 "id0" (fun _ => 0) 256 (LruCacheM.empty (List ℝ) 10000)
      "" none).embedding = some (List.replicate 256 (0 : ℝ)) ∧
    ¬ (|Real.sqrt (sumSq (List.replicate 256 (0 : ℝ))) - 1| ≤ 1 / 10000) := by
  have htok : tokenizeEmbedding "" = [] := by decide
  have hraw : hashEmbedRaw 256 "" = List.replicate 256 0 := by
    rw [hashEmbedRaw, htok]
    rfl
  have hsum : sumSq (List.replicate 256 (0 : ℝ)) = 0 := by
    rw [sumSq, List.map_replicate, List.sum_replicate]
    simp
  have hemb : hashEmbed 256 "" = List.replicate 256 0 := by
    rw [hashEmbed, hraw, normalize_zero_vector _ hsum]
  constructor
  · simp only [processRecord, cachedEmbed, LruCacheM.empty, List.find?_nil]
    rw [hemb]
  · rw [hsum, Real.sqrt_zero]
    norm_num

/-- Claim C2 (amended): for every record whose context is not the empty
string, saving and re-loading restores every field exactly — hence well
within the specification's serialisation tolerances — except that the
associations always load back empty. -/
theorem save_load_roundtrip (item : MemoryItem) (hctx : item.context ≠ some "") :
    rowToMemory (toRow item) = { item with associations := [] } := by
  have hcontext : (if (item.context.getD "") = "" then none else some (item.context.getD ""))
      = item.context := by
    cases hc : item.context with
    | none => simp
    | some c =>
      have hcne : c ≠ "" := by
        intro h
        exact hctx (by rw [hc, h])
      simp [hcne]
  have htype : (if memoryTypeStr item.memory_type = "Working" then MemoryType.Working
      else if memoryTypeStr item.memory_type = "Episodic" then MemoryType.Episodic
      else if memoryTypeStr item.memory_type = "Semantic" then MemoryType.Semantic
      else if memoryTypeStr item.memory_type = "Procedural" then MemoryType.Procedural
      else MemoryType.Semantic) = item.memory_type := by
    cases item.memory_type <;> simp [memoryTypeStr]
  have hemotion : (if emotionStr item.emotion = "Neutral" then Emotion.Neutral
      else if emotionStr item.emotion = "Positive" then Emotion.Positive
      else if emotionStr item.emotion = "Negative" then Emotion.Negative
      else if emotionStr item.emotion = "Surprise" then Emotion.Surprise
      else Emotion.Neutral) = item.emotion := by
    cases item.emotion <;> simp [emotionStr]
  simp only [rowToMemory, toRow]
  rw [hcontext, htype, hemotion]
  simp

/-- Witness for C2 (amended): a concrete record with a non-empty context
round-trips up to the emptied associations. -/
theorem save_load_roundtrip_witness :
    let item : MemoryItem :=
      { id := "b1", content := "Rust is safe", context := some "chat"
        memory_type := MemoryType.Semantic, emotion := Emotion.Positive
        created_at := 5, last_accessed := 9, access_count := 2
        strength := 1, embedding := some [1, 0], associations := ["b2"]
        tags := ["lang"] }
    item.context ≠ some "" ∧
    rowToMemory (toRow item) = { item with associations := [] } := by
  intro item
  refine ⟨by simp [item], save_load_roundtrip item (by simp [item])⟩

/-- Claim C2 counterexample: a record carrying one association does not
round-trip: `save` writes no associations column and `row_to_memory`
always returns an empty association list. -/
theorem save_load_drops_associations :
    let item : MemoryItem :=
      { id := "b1", content := "Rust is safe", context := none
        memory_type := MemoryType.Semantic, emotion := Emotion.Neutral
        created_at := 5, last_accessed := 9, access_count := 2
        strength := 1, embedding := none, associations := ["b2"]
        tags := [] }
    (rowToMemory (toRow item)).associations = [] ∧ item.associations = ["b2"] ∧
    rowToMemory (toRow item) ≠ item := by
  intro item
  refine ⟨rfl, rfl, ?_⟩
  intro h
  have : (rowToMemory (toRow item)).associations = item.associations := by rw [h]
  simp [rowToMemory, item] at this

theorem presentIn_save_self (store : List Row) (r : Row) :
    presentIn (storageSave store r) r.id := by
  rw [storageSave]
  split
  · rename_i hany
    rcases List.any_eq_true.mp hany with ⟨x, hx, hxid⟩
    refine ⟨r, ?_, rfl⟩
    rw [List.mem_map]
    exact ⟨x, hx, by simp [hxid]⟩
  · exact ⟨r, by simp, rfl⟩

theorem presentIn_save_other (store : List Row) (r : Row) (rid : String)
    (hne : rid ≠ r.id) : presentIn (storageSave store r) rid ↔ presentIn store rid := by
  rw [storageSave]
  split
  · constructor
    · rintro ⟨row, hrow, hid⟩
      rcases List.mem_map.mp hrow with ⟨x, hx, hxeq⟩
      by_cases hxid : x.id == r.id
      · exfalso
        rw [if_pos hxid] at hxeq
        rw [← hxeq] at hid
        exact hne hid.symm
      · rw [if_neg hxid] at hxeq
        exact ⟨x, hx, by rw [hxeq, hid]⟩
    · rintro ⟨row, hrow, hid⟩
      have hrne : ¬ (row.id == r.id) := by
        simp only [beq_iff_eq]
        rw [hid]
        exact hne
      refine ⟨row, ?_, hid⟩
      rw [List.mem_map]
      exact ⟨row, hrow, by rw [if_neg hrne]⟩
  · constructor
    · rintro ⟨row, hrow, hid⟩
      rcases List.mem_append.mp hrow with h | h
      · exact ⟨row, h, hid⟩
      · exfalso
        have : row = r := by simpa using h
        rw [this] at hid
        exact hne hid.symm
    · rintro ⟨row, hrow, hid⟩
      exact ⟨row, List.mem_append.mpr (Or.inl hrow), hid⟩

theorem presentIn_delete_self (store : List Row) (rid : String) :
    ¬ presentIn (storageDelete store rid) rid := by
  rintro ⟨row, hrow, hid⟩
  rw [storageDelete, List.mem_filter] at hrow
  have := hrow.2
  simp only [Bool.not_eq_true', beq_eq_false_iff_ne] at this
  exact this hid

theorem presentIn_delete_other (store : List Row) (rid rid2 : String)
    (hne : rid2 ≠ rid) : presentIn (storageDelete store rid) rid2 ↔ presentIn store rid2 := by
  constructor
  · rintro ⟨row, hrow, hid⟩
    exact ⟨row, (List.mem_filter.mp hrow).1, hid⟩
  · rintro ⟨row, hrow, hid⟩
    refine ⟨row, List.mem_filter.mpr ⟨hrow, ?_⟩, hid⟩
    simp only [Bool.not_eq_true', beq_eq_false_iff_ne]
    rw [hid]
    exact hne

theorem forgettingStep_own_presence (now : ℤ) (st : List Row) (item : MemoryItem) :
    presentIn (forgettingStep now st item) item.id ↔
      ¬ (item.strength * calculateDecay now item < 0.1) := by
  rw [forgettingStep]
  by_cases hf : (item.decayBy (calculateDecay now item)).is_forgotten
  · rw [if_pos hf]
    simp only [MemoryItem.is_forgotten, MemoryItem.decayBy] at hf
    constructor
    · intro hp
      exact absurd hp (presentIn_delete_self st _)
    · intro hnf
      exact absurd hf hnf
  · rw [if_neg hf]
    simp only [MemoryItem.is_forgotten, MemoryItem.decayBy] at hf
    constructor
    · intro _
      exact hf
    · intro _
      have := presentIn_save_self st (toRow (item.decayBy (calculateDecay now item)))
      simpa [toRow, MemoryItem.decayBy] using this

theorem forgettingStep_other_presence (now : ℤ) (st : List Row) (item : MemoryItem)
    (rid : String) (hne : rid ≠ item.id) :
    presentIn (forgettingStep now st item) rid ↔ presentIn st rid := by
  rw [forgettingStep]
  split
  · exact presentIn_delete_other st _ rid hne
  · have : rid ≠ (toRow (item.decayBy (calculateDecay now item))).id := by
      simpa [toRow, MemoryItem.decayBy] using hne
    exact presentIn_save_other st _ rid this

theorem foldl_forgetting_presence_other (now : ℤ) (rid : String) :
    ∀ (L : List MemoryItem) (st : List Row), (∀ x ∈ L, x.id ≠ rid) →
      (presentIn (L.foldl (forgettingStep now) st) rid ↔ presentIn st rid) := by
  intro L
  induction L with
  | nil => intro st _; rfl
  | cons a L ih =>
    intro st hL
    rw [List.foldl_cons]
    rw [ih (forgettingStep now st a) (fun x hx => hL x (by simp [hx]))]
    exact forgettingStep_other_presence now st a rid
      (fun h => hL a (by simp) h.symm)

theorem foldl_forgetting_presence (now : ℤ) :
    ∀ (L : List MemoryItem) (st : List Row) (r : MemoryItem), r ∈ L →
      (L.map (fun i => i.id)).Nodup →
      (presentIn (L.foldl (forgettingStep now) st) r.id ↔
        ¬ (r.strength * calculateDecay now r < 0.1)) := by
  intro L
  induction L with
  | nil => intro st r hr; exact absurd hr (List.not_mem_nil r)
  | cons a L ih =>
    intro st r hr hnodup
    rw [List.map_cons, List.nodup_cons] at hnodup
    rw [List.foldl_cons]
    rcases List.mem_cons.mp hr with rfl | hrL
    · have hother : ∀ x ∈ L, x.id ≠ r.id := by
        intro x hx h
        exact hnodup.1 (h ▸ List.mem_map.mpr ⟨x, hx, rfl⟩)
      rw [foldl_forgetting_presence_other now r.id L (forgettingStep now st r) hother]
      exact forgettingStep_own_presence now st r
    · exact ih (forgettingStep now st a) r hrL hnodup.2

/-- Claim C4 (amended): a forgetting pass over the episodic tier deletes
a stored record precisely when its decayed strength — old strength times
the clamped decay multiplier — falls below 0.1; the record's emotion is
never consulted, so emotional records with strength at least 0.3 enjoy
no protection (see the counterexample). -/
theorem episodic_forgetting_deletes_iff (now : ℤ) (store : List Row) (r : MemoryItem)
    (hr : r ∈ storageGetAll store) (hnodup : (store.map Row.id).Nodup) :
    presentIn (episodicApplyForgetting now store) r.id ↔
      ¬ (r.strength * calculateDecay now r < 0.1) := by
  rw [episodicApplyForgetting]
  refine foldl_forgetting_presence now (storageGetAll store) store r hr ?_
  have : (storageGetAll store).map (fun i => i.id) = store.map Row.id := by
    rw [storageGetAll, List.map_map]
    rfl
  rwa [this]

theorem rowToMemory_toRow_recFresh : rowToMemory (toRow recFresh) = recFresh := by
  simp [rowToMemory, toRow, recFresh, memoryTypeStr, emotionStr]

theorem rowToMemory_toRow_recEmotional :
    rowToMemory (toRow recEmotional) = recEmotional := by
  simp [rowToMemory, toRow, recEmotional, memoryTypeStr, emotionStr]

theorem calculateDecay_recFresh : calculateDecay 0 recFresh = 1 := by
  rw [calculateDecay]
  show max (Real.exp (-((((0 - recFresh.last_accessed) / 3600000 : ℤ) : ℝ) / 24) * 0.1 /
      (max (Real.log (recFresh.access_count : ℝ)) 1 * recFresh.strength *
        (if (7 : ℝ) < (((0 - recFresh.created_at) / 86400000 : ℤ) : ℝ) then 1.2 else 1)))) 0.1
      = 1
  have h1 : ((0 - recFresh.last_accessed) / 3600000 : ℤ) = 0 := by decide
  rw [h1]
  norm_num [Real.exp_zero]

/-- Witness for C4 (amended): a fresh full-strength record survives the
forgetting pass (its decay multiplier is 1). -/
theorem episodic_forgetting_deletes_iff_witness :
    (recFresh ∈ storageGetAll [toRow recFresh]) ∧
    (([toRow recFresh].map Row.id).Nodup) ∧
    presentIn (episodicApplyForgetting 0 [toRow recFresh]) recFresh.id := by
  have hmem : recFresh ∈ storageGetAll [toRow recFresh] := by
    rw [storageGetAll, List.map_cons, List.map_nil, rowToMemory_toRow_recFresh]
    simp
  have hnodup : ([toRow recFresh].map Row.id).Nodup := by simp
  refine ⟨hmem, hnodup, ?_⟩
  refine (episodic_forgetting_deletes_iff 0 [toRow recFresh] recFresh hmem hnodup).mpr ?_
  rw [calculateDecay_recFresh]
  show ¬ ((1 : ℝ) * 1 < 0.1)
  norm_num

theorem calculateDecay_recEmotional :
    calculateDecay 25920000000 recEmotional = 0.1 := by
  rw [calculateDecay]
  show max (Real.exp (-((((25920000000 - recEmotional.last_accessed) / 3600000 : ℤ) : ℝ)
      / 24) * 0.1 /
      (max (Real.log (recEmotional.access_count : ℝ)) 1 * recEmotional.strength *
        (if (7 : ℝ) < (((25920000000 - recEmotional.created_at) / 86400000 : ℤ) : ℝ)
          then 1.2 else 1)))) 0.1 = 0.1
  have h1 : ((25920000000 - recEmotional.last_accessed) / 3600000 : ℤ) = 7200 := by decide
  have h2 : ((25920000000 - recEmotional.created_at) / 86400000 : ℤ) = 300 := by decide
  rw [h1, h2]
  have hlog : Real.log ((recEmotional.access_count : ℕ) : ℝ) = 0 := by
    show Real.log ((1 : ℕ) : ℝ) = 0
    simp
  rw [hlog]
  have hmax1 : max (0 : ℝ) 1 = 1 := by norm_num
  rw [hmax1]
  have hite : (if (7 : ℝ) < ((300 : ℤ) : ℝ) then (1.2 : ℝ) else 1) = 1.2 := by
    rw [if_pos]
    norm_num
  rw [hite]
  have hstr : recEmotional.strength = 0.3 := rfl
  rw [hstr]
  have harg : -((((7200 : ℤ) : ℝ)) / 24) * 0.1 / ((1 : ℝ) * 0.3 * 1.2) = -(250 / 3) := by
    norm_num
  have hexp : Real.exp (-((((7200 : ℤ) : ℝ)) / 24) * 0.1 / ((1 : ℝ) * 0.3 * 1.2)) ≤ 0.1 := by
    rw [harg]
    have h3 : (250 / 3 : ℝ) + 1 ≤ Real.exp (250 / 3) := Real.add_one_le_exp _
    have h4 : (0 : ℝ) < 250 / 3 + 1 := by norm_num
    rw [Real.exp_neg]
    have h5 : (Real.exp (250 / 3))⁻¹ ≤ (250 / 3 + 1)⁻¹ := inv_anti₀ h4 h3
    calc (Real.exp (250 / 3))⁻¹ ≤ (250 / 3 + 1)⁻¹ := h5
      _ ≤ 0.1 := by norm_num
  exact max_eq_right hexp

/-- Claim C4 counterexample: the forgetting pass deletes an emotional
record of strength 0.3 (positive emotion, 300 days idle): the decay
multiplier clamps at 0.1, the decayed strength 0.03 is below the
forgotten threshold 0.1, and the record is removed from its tier. -/
theorem emotional_record_deleted_by_forgetting :
    recEmotional.emotion ≠ Emotion.Neutral ∧
    (0.3 : ℝ) ≤ recEmotional.strength ∧
    episodicApplyForgetting 25920000000 [toRow recEmotional] = [] := by
  refine ⟨by simp [recEmotional], le_of_eq rfl, ?_⟩
  rw [episodicApplyForgetting, storageGetAll, List.map_cons, List.map_nil,
    rowToMemory_toRow_recEmotional, List.foldl_cons, List.foldl_nil, forgettingStep]
  rw [if_pos]
  · rw [storageDelete]
    show List.filter (fun x => !(x.id == (recEmotional.decayBy _).id)) [toRow recEmotional] = []
    have hid : (recEmotional.decayBy (calculateDecay 25920000000 recEmotional)).id
        = "c4" := rfl
    rw [hid]
    rfl
  · show (recEmotional.decayBy (calculateDecay 25920000000 recEmotional)).is_forgotten
    rw [MemoryItem.is_forgotten, MemoryItem.decayBy, calculateDecay_recEmotional]
    show (0.3 : ℝ) * 0.1 < 0.1
    norm_num

theorem rowToMemory_toRow_recSem : rowToMemory (toRow recSem) = recSem := by
  simp [rowToMemory, toRow, recSem, memoryTypeStr, emotionStr]

/-- Claim C1: the sleep tick persists nothing out of working memory.
`WorkingMemory::push` overwrites every stored item's `memory_type` to
`Working`, and `Brain::sleep`'s `consolidate_memory` is a no-op for
`Working`-typed items; a consolidation-worthy record (positive emotion,
strength 0.8, above even the 0.7 importance threshold) is therefore in
no tier after sleep, and working memory is cleared. -/
theorem sleep_drops_worthy_working_record :
    shouldConsolidate recWorthy ∧
    (Brain.sleep 0 brainWithWorthy).episodic = [] ∧
    (Brain.sleep 0 brainWithWorthy).semantic = [] ∧
    (Brain.sleep 0 brainWithWorthy).procedural = [] ∧
    (Brain.sleep 0 brainWithWorthy).working.items = [] := by
  have hworthy : shouldConsolidate recWorthy := by
    left
    simp [recWorthy]
  have hitems : brainWithWorthy.working.items =
      [{ recWorthy with memory_type := MemoryType.Working }] := by
    simp [brainWithWorthy, WorkingMemory.mkNew, WorkingMemory.push]
  have hthreshold : brainWithWorthy.working.importance_threshold = 0.7 := rfl
  have himportant : brainWithWorthy.working.getImportant =
      [{ recWorthy with memory_type := MemoryType.Working }] := by
    rw [WorkingMemory.getImportant, hitems, hthreshold]
    rw [List.filter_cons]
    rw [List.filter_nil]
    have hcond : (0.7 : ℝ) ≤ ({ recWorthy with memory_type := MemoryType.Working}).strength := by
      show (0.7 : ℝ) ≤ 0.8
      norm_num
    simp [hcond]
  have hfold : (brainWithWorthy.working.getImportant).foldl (consolidateMemory 0)
      brainWithWorthy = brainWithWorthy := by
    rw [himportant, List.foldl_cons, List.foldl_nil]
    rfl
  have hsleep : Brain.sleep 0 brainWithWorthy =
      { brainWithWorthy with working := brainWithWorthy.working.clear } := by
    rw [Brain.sleep, hfold]
    have hepi : episodicApplyForgetting 0 brainWithWorthy.episodic =
        brainWithWorthy.episodic := rfl
    have hsem : semanticApplyForgetting 0 brainWithWorthy.semantic =
        brainWithWorthy.semantic := rfl
    simp [hepi, hsem]
  rw [hsleep]
  exact ⟨hworthy, rfl, rfl, rfl, rfl⟩

/-- Claim C5: on a semantic-tier record, `Brain::update_strength` does
not persist the clamped new strength. The record (strength 0.5, id
`aaaa`) is found by prefix `aa` and the new strength 0.9 is written
through `SemanticMemory::store`, whose dedup-on-insert matches the
record against itself, bumps the old strength by 0.1 instead, and drops
the update: the persisted strength is 0.6, not 0.9. A prefix matching
nothing reports failure. -/
theorem updateStrength_semantic_dedup_bug :
    clampUnit 0.9 = 0.9 ∧
    (brainSem.updateStrength 1000 "aa" 0.9).2 = true ∧
    ((brainSem.updateStrength 1000 "aa" 0.9).1.semantic.map Row.strength
      = [min ((0.5 : ℝ) + 0.1) 1]) ∧
    (min ((0.5 : ℝ) + 0.1) 1 ≠ 0.9) ∧
    (brainSem.updateStrength 1000 "zz" 0.9).2 = false := by
  have hclamp : clampUnit 0.9 = 0.9 := by
    rw [clampUnit]
    norm_num
  have hsearchE : storageSearch brainSem.episodic "" 100000 = [] := rfl
  have hgetAllS : storageGetAll brainSem.semantic = [recSem] := by
    show storageGetAll [toRow recSem] = [recSem]
    rw [storageGetAll, List.map_cons, List.map_nil, rowToMemory_toRow_recSem]
  have hsearchS : storageSearch brainSem.semantic "" 100000 = [recSem] := by
    rw [storageSearch, hgetAllS]
    rfl
  have hpre : strStartsWith recSem.id "aa" = true := by decide
  have hprezz : strStartsWith recSem.id "zz" = false := by decide
  have hfindS : (storageSearch brainSem.semantic "" 100000).find?
      (fun i => strStartsWith i.id "aa") = some recSem := by
    rw [hsearchS]
    have h1 : (fun i => strStartsWith i.id "aa") recSem = true := hpre
    exact List.find?_cons_of_pos _ h1
  have hfindSzz : (storageSearch brainSem.semantic "" 100000).find?
      (fun i => strStartsWith i.id "zz") = none := by
    rw [hsearchS]
    have h1 : ¬ ((fun i => strStartsWith i.id "zz") recSem = true) := by
      show ¬ (strStartsWith recSem.id "zz" = true)
      rw [hprezz]
      exact Bool.false_ne_true
    have h2 : List.find? (fun i => strStartsWith i.id "zz") [recSem]
        = List.find? (fun i => strStartsWith i.id "zz") [] :=
      List.find?_cons_of_neg _ h1
    rw [h2, List.find?_nil]
  have hmatch : matchesQuery "rust ownership" recSem = true := by decide
  have hsearchContent : storageSearch brainSem.semantic "rust ownership" 1 = [recSem] := by
    rw [storageSearch, hgetAllS]
    have hq : ("rust ownership" = "") = False := by simp
    simp only [hq, if_false, List.filter_cons, hmatch, if_true, List.filter_nil]
    rfl
  have hsimilar : semanticFindSimilar brainSem.semantic "rust ownership"
      = some recSem := by
    rw [semanticFindSimilar, hsearchContent]
    show (if strContains (lowerChars "rust ownership") (lowerChars recSem.content)
        ∨ strContains (lowerChars recSem.content) (lowerChars "rust ownership")
      then some recSem else none) = some recSem
    rw [if_pos]
    left
    decide
  have hid : (toRow (recSem.access 1000)).id = "aaaa" := rfl
  have hany : ([toRow recSem].any (fun x => x.id == (toRow (recSem.access 1000)).id))
      = true := by
    rw [List.any_cons]
    rw [hid]
    rfl
  have hcondmap : ((toRow recSem).id == (toRow (recSem.access 1000)).id) = true := by
    rw [hid]
    rfl
  have hstore : semanticStore 1000 brainSem.semantic
      { recSem with strength := clampUnit 0.9 } = [toRow (recSem.access 1000)] := by
    show (match semanticFindSimilar brainSem.semantic
        ({ { recSem with strength := clampUnit 0.9 } with
          memory_type := MemoryType.Semantic }).content with
      | some existing => storageSave brainSem.semantic (toRow (existing.access 1000))
      | none => storageSave brainSem.semantic
          (toRow { { recSem with strength := clampUnit 0.9 } with
            memory_type := MemoryType.Semantic })) = [toRow (recSem.access 1000)]
    have hcontent : ({ { recSem with strength := clampUnit 0.9 } with
        memory_type := MemoryType.Semantic }).content = "rust ownership" := rfl
    rw [hcontent, hsimilar]
    show storageSave brainSem.semantic (toRow (recSem.access 1000))
        = [toRow (recSem.access 1000)]
    rw [storageSave]
    show (if ([toRow recSem].any (fun x => x.id == (toRow (recSem.access 1000)).id)) = true
      then [toRow recSem].map
        (fun x => if x.id == (toRow (recSem.access 1000)).id
          then toRow (recSem.access 1000) else x)
      else [toRow recSem] ++ [toRow (recSem.access 1000)]) = [toRow (recSem.access 1000)]
    rw [if_pos hany, List.map_cons, List.map_nil, if_pos hcondmap]
  constructor
  · exact hclamp
  refine ⟨?_, ?_, ?_, ?_⟩
  · rw [Brain.updateStrength, hsearchE]
    simp only [List.find?_nil]
    rw [hfindS]
  · rw [Brain.updateStrength, hsearchE]
    simp only [List.find?_nil]
    rw [hfindS]
    simp only
    have hitem : ({ recSem with strength := clampUnit 0.9 } : MemoryItem)
        = { recSem with strength := clampUnit 0.9 } := rfl
    rw [hstore]
    show [(toRow (recSem.access 1000)).strength] = [min ((0.5 : ℝ) + 0.1) 1]
    rfl
  · norm_num
  · rw [Brain.updateStrength, hsearchE]
    simp only [List.find?_nil]
    rw [hfindSzz]
    have hsearchP : storageSearch brainSem.procedural "" 100000 = [] := rfl
    rw [hsearchP]
    simp only [List.find?_nil]

end MemoryBrain
